import Mathlib

/-!
Verification of the besobot backtest/decision engine against its
natural-language specification.

The Python source is shallowly embedded: prices, balances, indicator values
and scores are rationals (`ℚ`); Python `float('inf')` sentinels are embedded
as `Option` (`none` = infinity); fallible lookups (`mt5.account_info()`,
`symbol_info_tick`) are `Option` arguments; dictionaries holding a single
open position become a `Position` structure, and the engine's mutable
attributes become an explicit `EngineState` threaded through the bar loop.
-/

namespace Besobot

/-- Trade direction, the `'buy' | 'sell'` strings of the source. -/
inductive Direction where
  | buy
  | sell
deriving DecidableEq, Repr

/-! ## ExitStrategies (src/strategies/exit_strategies.py) -/

/-- `ExitStrategies.trailing_stop_atr`.  The source reads the current stop
with `position.get('sl_price', 0)` on the buy side and
`position.get('sl_price', float('inf'))` on the sell side; the current stop
is therefore an `Option ℚ` here, `none` meaning the key is absent (buy
default `0`, sell default `+∞`, in which case `min` returns the new stop). -/
def trailing_stop_atr (current_price : ℚ) (direction : Direction)
    (sl_price : Option ℚ) (atr_value : ℚ) (multiplier : ℚ) : ℚ :=
  match direction with
  | .buy =>
      let new_sl := current_price - atr_value * multiplier
      let current_sl := sl_price.getD 0
      max new_sl current_sl
  | .sell =>
      let new_sl := current_price + atr_value * multiplier
      match sl_price with
      | some current_sl => min new_sl current_sl
      | none => new_sl

/-- `ExitStrategies.partial_profit_taking`, directional profit percentage. -/
def profitPct (direction : Direction) (entry_price current_price : ℚ) : ℚ :=
  match direction with
  | .buy => (current_price - entry_price) / entry_price * 100
  | .sell => (entry_price - current_price) / entry_price * 100

/-- The loop of `ExitStrategies.partial_profit_taking` over the threshold
list.  The source keys the "taken" flag by the level percentage
(`f'taken_{level_pct}'` in the position dict); the set of already-taken
level percentages is the `taken` list.  Returns the fired
`(level_pct, close_pct)` pair (the Python return value is its `close_pct`,
`0` when `none`) together with the updated taken set. -/
def partialProfitLoop (profit_pct : ℚ) :
    List (ℚ × ℚ) → List ℚ → Option (ℚ × ℚ) × List ℚ
  | [], taken => (none, taken)
  | (level_pct, close_pct) :: rest, taken =>
      if level_pct ≤ profit_pct ∧ level_pct ∉ taken then
        (some (level_pct, close_pct), level_pct :: taken)
      else
        partialProfitLoop profit_pct rest taken

/-- `ExitStrategies.partial_profit_taking`: full function, from the
direction/entry/current price and the taken-flag state. -/
def partial_profit_taking (direction : Direction) (entry_price current_price : ℚ)
    (levels : List (ℚ × ℚ)) (taken : List ℚ) : Option (ℚ × ℚ) × List ℚ :=
  partialProfitLoop (profitPct direction entry_price current_price) levels taken

lemma partialProfitLoop_fired_mem (p : ℚ) (levels : List (ℚ × ℚ)) (taken : List ℚ)
    (l c : ℚ) (h : (partialProfitLoop p levels taken).1 = some (l, c)) :
    l ∈ (partialProfitLoop p levels taken).2 := by
  induction levels generalizing taken with
  | nil => simp [partialProfitLoop] at h
  | cons lv rest ih =>
      obtain ⟨lp, cp⟩ := lv
      by_cases hc : lp ≤ p ∧ lp ∉ taken
      · simp only [partialProfitLoop, if_pos hc] at h ⊢
        obtain ⟨h1, _⟩ := Prod.mk.injEq .. ▸ (Option.some.injEq .. ▸ h)
        simp [← h1]
      · simpa only [partialProfitLoop, if_neg hc] using
          ih taken (by simpa only [partialProfitLoop, if_neg hc] using h)

lemma partialProfitLoop_taken_not_fired (p : ℚ) (levels : List (ℚ × ℚ))
    (taken : List ℚ) (l : ℚ) (hl : l ∈ taken) (c : ℚ) :
    (partialProfitLoop p levels taken).1 ≠ some (l, c) := by
  induction levels generalizing taken with
  | nil => simp [partialProfitLoop]
  | cons lv rest ih =>
      obtain ⟨lp, cp⟩ := lv
      by_cases hc : lp ≤ p ∧ lp ∉ taken
      · simp only [partialProfitLoop, if_pos hc]
        intro he
        obtain ⟨h1, _⟩ := Prod.mk.injEq .. ▸ (Option.some.injEq .. ▸ he)
        exact hc.2 (h1 ▸ hl)
      · simpa only [partialProfitLoop, if_neg hc] using ih taken hl

/-- C4: the ATR trailing stop only ever tightens: with an existing stop `s`,
a buy position's returned stop is `max (price − ATR·mult) s ≥ s` (never moves
down) and a sell position's returned stop is `min (price + ATR·mult) s ≤ s`
(never moves up); moreover the returned stop is exactly the stated
max/min of the newly computed stop and the current one. -/
theorem trailing_stop_only_tightens (price atr mult s : ℚ) :
    (trailing_stop_atr price .buy (some s) atr mult =
        max (price - atr * mult) s ∧
      s ≤ trailing_stop_atr price .buy (some s) atr mult) ∧
    (trailing_stop_atr price .sell (some s) atr mult =
        min (price + atr * mult) s ∧
      trailing_stop_atr price .sell (some s) atr mult ≤ s) := by
  refine ⟨⟨rfl, ?_⟩, ⟨rfl, ?_⟩⟩
  · exact le_max_right _ _
  · exact min_le_right _ _

/-- C5: partial profit-taking is idempotent per threshold level: if an
evaluation fires level `(l, c)` (marking `taken_l`), then the next
evaluation — at any profit, in particular the same or a higher one — never
fires level `l` again. -/
theorem partial_profit_taking_idempotent (dir : Direction)
    (entry p1 p2 : ℚ) (levels : List (ℚ × ℚ)) (taken : List ℚ) (l c : ℚ)
    (hfire : (partial_profit_taking dir entry p1 levels taken).1 = some (l, c)) :
    ∀ c2, (partial_profit_taking dir entry p2 levels
      (partial_profit_taking dir entry p1 levels taken).2).1 ≠ some (l, c2) := by
  intro c2
  exact partialProfitLoop_taken_not_fired _ _ _ _
    (partialProfitLoop_fired_mem _ _ _ _ _ hfire) _

/-- Witness for C5 at a concrete input: level 1% fires at 2% profit on a buy
from entry 100 to price 102, and does not fire again on re-evaluation. -/
theorem partial_profit_taking_idempotent_witness :
    (partial_profit_taking .buy 100 102 [(1, 30)] []).1 = some (1, 30) ∧
    (partial_profit_taking .buy 100 102 [(1, 30)]
      (partial_profit_taking .buy 100 102 [(1, 30)] []).2).1 ≠ some (1, 30) :=
  ⟨by norm_num [partial_profit_taking, partialProfitLoop, profitPct],
   partial_profit_taking_idempotent .buy 100 102 102 [(1, 30)] [] 1 30
     (by norm_num [partial_profit_taking, partialProfitLoop, profitPct]) 30⟩

/-! ## RiskManager.calculate_position_size (src/core/risk_manager.py) -/

/-- Symbol classes distinguished by `calculate_position_size`:
`"XAU" in symbol or "XAG" in symbol`, `"USOIL" in symbol`, and the rest. -/
inductive SymbolClass where
  | metals
  | oil
  | other
deriving DecidableEq, Repr

/-- Python `round(x, 2)`.  (Python rounds half to even; `round` here rounds
half up — the two agree except exactly halfway between two cents, and no
property proved below depends on the halfway direction.) -/
def roundTo2 (x : ℚ) : ℚ := ((round (x * 100) : ℤ) : ℚ) / 100

/-- `tick.ask if side == 'buy' else tick.bid`. -/
def tickPrice (side : Direction) (ask bid : ℚ) : ℚ :=
  match side with
  | .buy => ask
  | .sell => bid

/-- The per-symbol-class `risk_per_lot` computation of
`RiskManager.calculate_position_size`. -/
def riskPerLot (sym : SymbolClass) (distance contract_size : ℚ) : ℚ :=
  match sym with
  | .metals => (distance / 0.01) * 1
  | .oil => distance * contract_size
  | .other => distance * contract_size

/-- `RiskManager.calculate_position_size`.  `account_equity` is
`mt5.account_info().equity` (`none` when the call fails), `tick` is
`(ask, bid)` from `mt5.symbol_info_tick` (`none` when unavailable),
`contract_size` is `mt5.symbol_info(symbol).trade_contract_size`. -/
def calculate_position_size (account_equity : Option ℚ) (tick : Option (ℚ × ℚ))
    (contract_size : ℚ) (sym : SymbolClass) (stop_loss_price : ℚ)
    (side : Direction) (risk_percent : ℚ) : ℚ :=
  match account_equity with
  | none => 0.01
  | some equity =>
      let risk_amount := equity * (risk_percent / 100)
      match tick with
      | none => 0.01
      | some (ask, bid) =>
          let price := tickPrice side ask bid
          let distance := |price - stop_loss_price|
          if distance ≤ 0 then 0.01
          else
            let risk_per_lot := riskPerLot sym distance contract_size
            if risk_per_lot ≤ 0 then 0.01
            else
              let lots := roundTo2 (risk_amount / risk_per_lot)
              max 0.01 (min 5 lots)

/-- C2: position sizing always returns a lot in `[MIN_LOT, MAX_LOT] =
[0.01, 5.0]` (in particular never a negative value, and being a total `ℚ`
function it never raises and has no NaN), returns the minimum lot `0.01`
when the account or tick inputs are unavailable, and returns `0.01`
whenever the computed risk-per-lot is `≤ 0` (which subsumes a zero stop
distance). -/
theorem calculate_position_size_bounds (account_equity : Option ℚ)
    (tick : Option (ℚ × ℚ)) (contract_size : ℚ) (sym : SymbolClass)
    (stop_loss_price : ℚ) (side : Direction) (risk_percent : ℚ) :
    (0.01 ≤ calculate_position_size account_equity tick contract_size sym
        stop_loss_price side risk_percent ∧
      calculate_position_size account_equity tick contract_size sym
        stop_loss_price side risk_percent ≤ 5) ∧
    (account_equity = none ∨ tick = none →
      calculate_position_size account_equity tick contract_size sym
        stop_loss_price side risk_percent = 0.01) ∧
    (∀ equity ask bid, account_equity = some equity → tick = some (ask, bid) →
      riskPerLot sym |tickPrice side ask bid - stop_loss_price| contract_size ≤ 0 →
      calculate_position_size account_equity tick contract_size sym
        stop_loss_price side risk_percent = 0.01) := by
  refine ⟨?_, ?_, ?_⟩
  · match account_equity with
    | none => exact ⟨le_refl _, by norm_num [calculate_position_size]⟩
    | some equity =>
        match tick with
        | none => exact ⟨le_refl _, by norm_num [calculate_position_size]⟩
        | some (ask, bid) =>
            simp only [calculate_position_size]
            split
            · exact ⟨le_refl _, by norm_num⟩
            · split
              · exact ⟨le_refl _, by norm_num⟩
              · constructor
                · exact le_max_left _ _
                · exact max_le (by norm_num) (min_le_left _ _)
  · rintro (rfl | rfl)
    · rfl
    · match account_equity with
      | none => rfl
      | some equity => rfl
  · rintro equity ask bid rfl rfl hrpl
    by_cases hd : |tickPrice side ask bid - stop_loss_price| ≤ 0
    · simp [calculate_position_size, hd]
    · simp [calculate_position_size, hd, hrpl]

/-- Witness for C2 at concrete inputs: with no account info the minimum lot
is returned, and with a real account, tick `(2000, 1999)`, stop `1990` on a
metals buy the returned lot lies in `[0.01, 5]`. -/
theorem calculate_position_size_bounds_witness :
    calculate_position_size none (some (2000, 1999)) 1 .metals 1990 .buy 1
        = 0.01 ∧
    0.01 ≤ calculate_position_size (some 10000) (some (2000, 1999)) 1 .metals
        1990 .buy 1 ∧
    calculate_position_size (some 10000) (some (2000, 1999)) 1 .metals
        1990 .buy 1 ≤ 5 :=
  ⟨(calculate_position_size_bounds none (some (2000, 1999)) 1 .metals 1990
      .buy 1).2.1 (Or.inl rfl),
   (calculate_position_size_bounds (some 10000) (some (2000, 1999)) 1 .metals
      1990 .buy 1).1.1,
   (calculate_position_size_bounds (some 10000) (some (2000, 1999)) 1 .metals
      1990 .buy 1).1.2⟩

/-! ## RSI (src/backtesting/backtest_engine.py `calculate_rsi`,
identical formula in src/core/data_manager.py) -/

/-- `delta.clip(lower=0)`: the positive parts of the bar-to-bar price
deltas.  `series.diff()` leaves its first entry undefined (NaN), so the
defined deltas pair each price with its predecessor. -/
def gains (prices : List ℚ) : List ℚ :=
  (prices.tail.zip prices).map fun p => max (p.1 - p.2) 0

/-- `-delta.clip(upper=0)`: the negative parts of the deltas, negated. -/
def losses (prices : List ℚ) : List ℚ :=
  (prices.tail.zip prices).map fun p => max (p.2 - p.1) 0

/-- The window `rolling(window=period, min_periods=1)` sees at position
`j`: elements `max(0, j+1-period) .. j` (pandas drops the NaN head of the
diff, which is why the window is over the defined deltas only). -/
def windowSlice (l : List ℚ) (period j : ℕ) : List ℚ :=
  (l.take (j + 1)).drop (j + 1 - period)

/-- `rolling(window=period, min_periods=1).mean()` at position `j`. -/
def rollingMean (l : List ℚ) (period j : ℕ) : ℚ :=
  let w := windowSlice l period j
  w.sum / (w.length : ℚ)

/-- The `1e-12` guard added to the average loss. -/
def rsiEps : ℚ := 1 / 10 ^ 12

/-- `calculate_rsi` at defined position `j` (position `j` of the delta
series, i.e. bar `j + 1` of the price series):
`rs = ma_up / (ma_down + 1e-12)`, `RSI = 100 - 100 / (1 + rs)`. -/
def rsiAt (prices : List ℚ) (period j : ℕ) : ℚ :=
  let ma_up := rollingMean (gains prices) period j
  let ma_down := rollingMean (losses prices) period j
  let rs := ma_up / (ma_down + rsiEps)
  100 - 100 / (1 + rs)

lemma windowSlice_nonneg (l : List ℚ) (hl : ∀ x ∈ l, 0 ≤ x) (period j : ℕ) :
    ∀ x ∈ windowSlice l period j, 0 ≤ x := fun x hx =>
  hl x (List.mem_of_mem_take (List.mem_of_mem_drop hx))

lemma rollingMean_nonneg (l : List ℚ) (hl : ∀ x ∈ l, 0 ≤ x) (period j : ℕ) :
    0 ≤ rollingMean l period j :=
  div_nonneg (List.sum_nonneg (windowSlice_nonneg l hl period j))
    (Nat.cast_nonneg _)

lemma gains_nonneg (prices : List ℚ) : ∀ x ∈ gains prices, 0 ≤ x := by
  intro x hx
  obtain ⟨p, _, rfl⟩ := List.mem_map.mp hx
  exact le_max_right _ _

lemma losses_nonneg (prices : List ℚ) : ∀ x ∈ losses prices, 0 ≤ x := by
  intro x hx
  obtain ⟨p, _, rfl⟩ := List.mem_map.mp hx
  exact le_max_right _ _

lemma rsi_formula_bounds (rs : ℚ) (h : 0 ≤ rs) :
    0 ≤ 100 - 100 / (1 + rs) ∧ 100 - 100 / (1 + rs) ≤ 100 := by
  have h1 : (1 : ℚ) ≤ 1 + rs := by linarith
  have hfrac_pos : (0 : ℚ) ≤ 100 / (1 + rs) :=
    div_nonneg (by norm_num) (by linarith)
  have hfrac_le : (100 : ℚ) / (1 + rs) ≤ 100 := div_le_self (by norm_num) h1
  constructor <;> linarith

/-- C3: every defined RSI value lies in `[0, 100]`: the average gain and
average loss are nonnegative, the `1e-12` guard keeps the denominator of
`rs` strictly positive, so `rs ≥ 0` and `100 − 100/(1+rs) ∈ [0, 100]`. -/
theorem rsi_bounds (prices : List ℚ) (period j : ℕ) (_hperiod : 1 ≤ period)
    (_hj : j < (gains prices).length) :
    0 ≤ rsiAt prices period j ∧ rsiAt prices period j ≤ 100 := by
  have hup : 0 ≤ rollingMean (gains prices) period j :=
    rollingMean_nonneg _ (gains_nonneg prices) period j
  have hdown : 0 ≤ rollingMean (losses prices) period j :=
    rollingMean_nonneg _ (losses_nonneg prices) period j
  have heps : (0 : ℚ) < rsiEps := by norm_num [rsiEps]
  have hdenom : (0 : ℚ) < rollingMean (losses prices) period j + rsiEps :=
    add_pos_of_nonneg_of_pos hdown heps
  have hrs : 0 ≤ rollingMean (gains prices) period j /
      (rollingMean (losses prices) period j + rsiEps) :=
    div_nonneg hup hdenom.le
  exact rsi_formula_bounds _ hrs

/-- Witness for C3: with prices `[1, 2]` and period `1`, the single defined
RSI value is within `[0, 100]`. -/
theorem rsi_bounds_witness :
    0 ≤ rsiAt [1, 2] 1 0 ∧ rsiAt [1, 2] 1 0 ≤ 100 :=
  rsi_bounds [1, 2] 1 0 (by norm_num) (by simp [gains])

/-! ## BacktestEngine (src/backtesting/backtest_engine.py)

The engine's mutable attributes (`current_balance`, `trades`,
`equity_curve`, `position`) become an `EngineState`; one iteration of the
main loop (lines 41–52: exit check, entry check, equity update) becomes
`stepBar`, and `run_backtest` folds it over the bar list (the warm-up skip
`range(100, len(data))` only selects which bars are fed in).  The strategy
object is external (polymorphic over instruments), so the per-bar
confirmation scores appear as fields of `Bar` and `calculate_sl_tp` as a
function argument; the per-bar random slippage draw is likewise a `Bar`
field.  Timestamps are rational seconds. -/

/-- The trade's recorded exit reason (`'sl' | 'tp' | 'time'`). -/
inductive ExitReason where
  | sl
  | tp
  | time
deriving DecidableEq, Repr

/-- The configuration keys read by the engine.  `isMetal` is
`'XAU' in SYMBOL or 'XAG' in SYMBOL`; `SPREAD_SIMULATION` and
`MAX_TRADE_HOURS` carry their `config.get` defaults already applied. -/
structure Config where
  MIN_CONFIRMATIONS : ℚ
  RISK_PERCENT : ℚ
  MIN_LOT : ℚ
  MAX_LOT : ℚ
  COMMISSION_PER_LOT : ℚ
  SPREAD_SIMULATION : ℚ
  MAX_TRADE_HOURS : ℚ
  isMetal : Bool

/-- One processed bar: timestamp (`current_bar.name`, seconds), close,
ATR (`none` for NaN), the strategy's confirmation scores for this bar,
and this bar's random slippage draw. -/
structure Bar where
  time : ℚ
  close : ℚ
  atr : Option ℚ
  confBuy : ℚ
  confSell : ℚ
  slip : ℚ

/-- The `self.position` dict created by `enter_trade`. -/
structure Position where
  entry_time : ℚ
  direction : Direction
  entry_price : ℚ
  sl_price : ℚ
  tp_price : ℚ
  lots : ℚ
  commission : ℚ
deriving Repr

/-- The `trade_info` record appended by `exit_trade` (`pnl` is net of
commission). -/
structure Trade where
  entry_time : ℚ
  exit_time : ℚ
  direction : Direction
  entry_price : ℚ
  exit_price : ℚ
  lots : ℚ
  pnl : ℚ
  commission : ℚ
  exit_reason : ExitReason
deriving Repr, DecidableEq

/-- The engine's mutable attributes. -/
structure EngineState where
  initial_balance : ℚ
  current_balance : ℚ
  trades : List Trade
  equity_curve : List (ℚ × ℚ)
  position : Option Position

/-- Signature of `strategy.calculate_sl_tp(price, atr, direction)`. -/
def SlTpRule : Type := ℚ → ℚ → Direction → ℚ × ℚ

/-- `BacktestEngine.enter_trade`: ATR fallback `0.1 * close` on NaN, fill =
close ± spread/2 + slippage, sizing from `RISK_PERCENT` of the current
balance, abort (no position) when `risk_per_lot ≤ 0`, lots rounded to two
decimals and clamped to `[MIN_LOT, MAX_LOT]`.  Only `self.position` is
assigned — the balance, trade log and equity curve are untouched. -/
def enter_trade (cfg : Config) (slTp : SlTpRule) (direction : Direction)
    (bar : Bar) (s : EngineState) : EngineState :=
  let atr_val := bar.atr.getD (0.1 * bar.close)
  let sl_price := (slTp bar.close atr_val direction).1
  let tp_price := (slTp bar.close atr_val direction).2
  let spread := cfg.SPREAD_SIMULATION
  let fill_price := match direction with
    | .buy => bar.close + spread / 2 + bar.slip
    | .sell => bar.close - spread / 2 + bar.slip
  let risk_amount := s.current_balance * (cfg.RISK_PERCENT / 100)
  let distance := |fill_price - sl_price|
  let risk_per_lot := if cfg.isMetal then (distance / 0.01) * 1 else distance * 1
  if risk_per_lot ≤ 0 then s
  else
    let lots := max cfg.MIN_LOT (min cfg.MAX_LOT (roundTo2 (risk_amount / risk_per_lot)))
    let commission := cfg.COMMISSION_PER_LOT * lots
    { s with position := some {
        entry_time := bar.time
        direction := direction
        entry_price := fill_price
        sl_price := sl_price
        tp_price := tp_price
        lots := lots
        commission := commission } }

/-- `BacktestEngine.check_entry_conditions`: enter buy if
`buy ≥ MIN_CONFIRMATIONS and buy > sell`, else enter sell if
`sell ≥ MIN_CONFIRMATIONS and sell > buy`, else do nothing. -/
def check_entry_conditions (cfg : Config) (slTp : SlTpRule) (bar : Bar)
    (s : EngineState) : EngineState :=
  if cfg.MIN_CONFIRMATIONS ≤ bar.confBuy ∧ bar.confSell < bar.confBuy then
    enter_trade cfg slTp .buy bar s
  else if cfg.MIN_CONFIRMATIONS ≤ bar.confSell ∧ bar.confBuy < bar.confSell then
    enter_trade cfg slTp .sell bar s
  else s

/-- `BacktestEngine.check_exit_conditions` for an open position: SL check,
then TP check, then the time-based exit, else no signal. -/
def check_exit_conditions (cfg : Config) (bar : Bar) (pos : Position) :
    Option ExitReason :=
  match pos.direction with
  | .buy =>
      if bar.close ≤ pos.sl_price then some .sl
      else if pos.tp_price ≤ bar.close then some .tp
      else if cfg.MAX_TRADE_HOURS ≤ (bar.time - pos.entry_time) / 3600 then
        some .time
      else none
  | .sell =>
      if pos.sl_price ≤ bar.close then some .sl
      else if bar.close ≤ pos.tp_price then some .tp
      else if cfg.MAX_TRADE_HOURS ≤ (bar.time - pos.entry_time) / 3600 then
        some .time
      else none

/-- `BacktestEngine.exit_trade`: PnL = directional price delta × lots × 100
minus commission, added to the balance; the trade record is appended and
the position cleared. -/
def exit_trade (bar : Bar) (exit_reason : ExitReason) (pos : Position)
    (s : EngineState) : EngineState :=
  let exit_price := bar.close
  let gross := match pos.direction with
    | .buy => (exit_price - pos.entry_price) * pos.lots * 100
    | .sell => (pos.entry_price - exit_price) * pos.lots * 100
  let pnl := gross - pos.commission
  { s with
    current_balance := s.current_balance + pnl
    trades := s.trades ++ [{
      entry_time := pos.entry_time
      exit_time := bar.time
      direction := pos.direction
      entry_price := pos.entry_price
      exit_price := exit_price
      lots := pos.lots
      pnl := pnl
      commission := pos.commission
      exit_reason := exit_reason }]
    position := none }

/-- `BacktestEngine.update_equity_curve`: append one `(timestamp, equity)`
point holding the current realized balance. -/
def update_equity_curve (bar : Bar) (s : EngineState) : EngineState :=
  { s with equity_curve := s.equity_curve ++ [(bar.time, s.current_balance)] }

/-- Lines 41–46 of the loop: exit check while a position is open. -/
def applyExit (cfg : Config) (bar : Bar) (s : EngineState) : EngineState :=
  match s.position with
  | some pos =>
      match check_exit_conditions cfg bar pos with
      | some reason => exit_trade bar reason pos s
      | none => s
  | none => s

/-- Lines 47–49 of the loop: entry check when flat (including flat because
the exit step of this very bar just closed a trade). -/
def applyEntry (cfg : Config) (slTp : SlTpRule) (bar : Bar)
    (s : EngineState) : EngineState :=
  match s.position with
  | none => check_entry_conditions cfg slTp bar s
  | some _ => s

/-- One iteration of the `run_backtest` main loop. -/
def stepBar (cfg : Config) (slTp : SlTpRule) (s : EngineState) (bar : Bar) :
    EngineState :=
  update_equity_curve bar (applyEntry cfg slTp bar (applyExit cfg bar s))

/-- `BacktestEngine.run_backtest`: reset the state (balance to the initial
balance, one seed equity point at the first timestamp, empty trade log, no
position) and fold the per-bar step over the processed bars. -/
def run_backtest (cfg : Config) (slTp : SlTpRule) (initial_balance t0 : ℚ)
    (bars : List Bar) : EngineState :=
  bars.foldl (stepBar cfg slTp)
    { initial_balance := initial_balance
      current_balance := initial_balance
      trades := []
      equity_curve := [(t0, initial_balance)]
      position := none }

lemma enter_trade_position (cfg : Config) (slTp : SlTpRule) (d : Direction)
    (bar : Bar) (s : EngineState) :
    enter_trade cfg slTp d bar s = s ∨
      ∃ p, (enter_trade cfg slTp d bar s).position = some p ∧
        p.direction = d := by
  unfold enter_trade
  dsimp only
  split
  all_goals
    split
    · exact Or.inl rfl
    · exact Or.inr ⟨_, rfl, rfl⟩

/-- C1: an entry while flat requires the entering direction's confirmation
score to be at least `MIN_CONFIRMATIONS` and strictly greater than the
opposite direction's score; and when the buy and sell scores are equal no
entry is taken (the state is returned unchanged). -/
theorem entry_tie_break (cfg : Config) (slTp : SlTpRule) (bar : Bar)
    (s : EngineState) (hflat : s.position = none) :
    (∀ p, (check_entry_conditions cfg slTp bar s).position = some p →
      (p.direction = .buy →
        cfg.MIN_CONFIRMATIONS ≤ bar.confBuy ∧ bar.confSell < bar.confBuy) ∧
      (p.direction = .sell →
        cfg.MIN_CONFIRMATIONS ≤ bar.confSell ∧ bar.confBuy < bar.confSell)) ∧
    (bar.confBuy = bar.confSell → check_entry_conditions cfg slTp bar s = s) := by
  constructor
  · intro p hp
    unfold check_entry_conditions at hp
    split at hp
    · rename_i hbuy
      rcases enter_trade_position cfg slTp .buy bar s with heq | ⟨q, hq, hd⟩
      · rw [heq, hflat] at hp
        exact absurd hp (by simp)
      · rw [hq] at hp
        obtain rfl := Option.some.injEq .. ▸ hp
        refine ⟨fun _ => hbuy, fun hsell => ?_⟩
        rw [hd] at hsell
        exact absurd hsell (by simp)
    · split at hp
      · rename_i hsell
        rcases enter_trade_position cfg slTp .sell bar s with heq | ⟨q, hq, hd⟩
        · rw [heq, hflat] at hp
          exact absurd hp (by simp)
        · rw [hq] at hp
          obtain rfl := Option.some.injEq .. ▸ hp
          refine ⟨fun hbuy => ?_, fun _ => hsell⟩
          rw [hd] at hbuy
          exact absurd hbuy (by simp)
      · rw [hflat] at hp
        exact absurd hp (by simp)
  · intro htie
    unfold check_entry_conditions
    rw [if_neg (fun h => absurd (htie ▸ h.2) (lt_irrefl _)),
      if_neg (fun h => absurd (htie ▸ h.2) (lt_irrefl _))]

/-- Witness for C1: with equal scores `2 = 2` and `MIN_CONFIRMATIONS = 2`
no entry is taken on a flat state. -/
theorem entry_tie_break_witness :
    check_entry_conditions
        ⟨2, 1, 1/100, 5, 0, 1/5000, 72, true⟩ (fun p _ _ => (p - 1, p + 2))
        ⟨0, 100, some 1, 2, 2, 0⟩
        ⟨10000, 10000, [], [], none⟩ =
      ⟨10000, 10000, [], [], none⟩ :=
  (entry_tie_break ⟨2, 1, 1/100, 5, 0, 1/5000, 72, true⟩
      (fun p _ _ => (p - 1, p + 2)) ⟨0, 100, some 1, 2, 2, 0⟩
      ⟨10000, 10000, [], [], none⟩ rfl).2 rfl

lemma enter_trade_preserves (cfg : Config) (slTp : SlTpRule) (d : Direction)
    (bar : Bar) (s : EngineState) :
    (enter_trade cfg slTp d bar s).initial_balance = s.initial_balance ∧
    (enter_trade cfg slTp d bar s).current_balance = s.current_balance ∧
    (enter_trade cfg slTp d bar s).trades = s.trades ∧
    (enter_trade cfg slTp d bar s).equity_curve = s.equity_curve := by
  unfold enter_trade
  dsimp only
  split
  all_goals
    split
    · exact ⟨rfl, rfl, rfl, rfl⟩
    · exact ⟨rfl, rfl, rfl, rfl⟩

lemma check_entry_preserves (cfg : Config) (slTp : SlTpRule) (bar : Bar)
    (s : EngineState) :
    (check_entry_conditions cfg slTp bar s).initial_balance = s.initial_balance ∧
    (check_entry_conditions cfg slTp bar s).current_balance = s.current_balance ∧
    (check_entry_conditions cfg slTp bar s).trades = s.trades ∧
    (check_entry_conditions cfg slTp bar s).equity_curve = s.equity_curve := by
  unfold check_entry_conditions
  split_ifs
  · exact enter_trade_preserves cfg slTp .buy bar s
  · exact enter_trade_preserves cfg slTp .sell bar s
  · exact ⟨rfl, rfl, rfl, rfl⟩

lemma applyEntry_preserves (cfg : Config) (slTp : SlTpRule) (bar : Bar)
    (s : EngineState) :
    (applyEntry cfg slTp bar s).initial_balance = s.initial_balance ∧
    (applyEntry cfg slTp bar s).current_balance = s.current_balance ∧
    (applyEntry cfg slTp bar s).trades = s.trades ∧
    (applyEntry cfg slTp bar s).equity_curve = s.equity_curve := by
  unfold applyEntry
  split
  · exact check_entry_preserves cfg slTp bar s
  · exact ⟨rfl, rfl, rfl, rfl⟩

lemma applyExit_preserves_aux (cfg : Config) (bar : Bar) (s : EngineState) :
    (applyExit cfg bar s).initial_balance = s.initial_balance ∧
    (applyExit cfg bar s).equity_curve = s.equity_curve := by
  unfold applyExit
  split
  · split
    · exact ⟨rfl, rfl⟩
    · exact ⟨rfl, rfl⟩
  · exact ⟨rfl, rfl⟩

lemma applyExit_balance_of_trades (cfg : Config) (bar : Bar) (s : EngineState)
    (h : (applyExit cfg bar s).trades = s.trades) :
    (applyExit cfg bar s).current_balance = s.current_balance := by
  unfold applyExit at *
  split at h
  · rename_i pos hpos
    split at h
    · exfalso
      have hlen := congrArg List.length h
      simp [exit_trade] at hlen
    · rfl
  · rfl

lemma stepBar_equity (cfg : Config) (slTp : SlTpRule) (bar : Bar)
    (s : EngineState) :
    (stepBar cfg slTp s bar).equity_curve =
      s.equity_curve ++ [(bar.time, (stepBar cfg slTp s bar).current_balance)] := by
  show (applyEntry cfg slTp bar (applyExit cfg bar s)).equity_curve ++
      [(bar.time, (applyEntry cfg slTp bar (applyExit cfg bar s)).current_balance)] =
    s.equity_curve ++ [(bar.time, (stepBar cfg slTp s bar).current_balance)]
  rw [(applyEntry_preserves cfg slTp bar _).2.2.2,
    (applyExit_preserves_aux cfg bar s).2]
  rfl

lemma stepBar_balance_of_trades (cfg : Config) (slTp : SlTpRule) (bar : Bar)
    (s : EngineState) (h : (stepBar cfg slTp s bar).trades = s.trades) :
    (stepBar cfg slTp s bar).current_balance = s.current_balance := by
  have hen := applyEntry_preserves cfg slTp bar (applyExit cfg bar s)
  have htr : (applyExit cfg bar s).trades = s.trades := by
    have : (stepBar cfg slTp s bar).trades =
        (applyEntry cfg slTp bar (applyExit cfg bar s)).trades := rfl
    rw [this, hen.2.2.1] at h
    exact h
  have hb := applyExit_balance_of_trades cfg bar s htr
  show (applyEntry cfg slTp bar (applyExit cfg bar s)).current_balance =
    s.current_balance
  rw [hen.2.1, hb]

lemma foldl_equity_length (cfg : Config) (slTp : SlTpRule) :
    ∀ (bars : List Bar) (s : EngineState),
      ((bars.foldl (stepBar cfg slTp) s).equity_curve).length =
        s.equity_curve.length + bars.length := by
  intro bars
  induction bars with
  | nil => intro s; simp
  | cons b rest ih =>
      intro s
      rw [List.foldl_cons, ih]
      rw [stepBar_equity cfg slTp b s]
      simp
      omega

/-- C7: each processed bar appends exactly one equity point holding the
realized balance after the bar (so a run over `n` bars yields an equity
curve of `n + 1` points, counting the seed point), and a bar that closes no
trade leaves the balance — hence the recorded equity — unchanged:
unrealized PnL of an open position never enters the equity curve, equity
moves only on trade close. -/
theorem equity_curve_realized_only (cfg : Config) (slTp : SlTpRule)
    (bar : Bar) (s : EngineState) (init t0 : ℚ) (bars : List Bar) :
    (stepBar cfg slTp s bar).equity_curve =
        s.equity_curve ++ [(bar.time, (stepBar cfg slTp s bar).current_balance)] ∧
    ((stepBar cfg slTp s bar).trades = s.trades →
        (stepBar cfg slTp s bar).current_balance = s.current_balance) ∧
    (run_backtest cfg slTp init t0 bars).equity_curve.length = bars.length + 1 := by
  refine ⟨stepBar_equity cfg slTp bar s,
    stepBar_balance_of_trades cfg slTp bar s, ?_⟩
  unfold run_backtest
  rw [foldl_equity_length]
  simp [Nat.add_comm]

/-- Witness for C7: a flat bar with sub-threshold scores closes no trade,
and the step indeed leaves the balance unchanged. -/
theorem equity_curve_realized_only_witness :
    (stepBar ⟨2, 1, 1/100, 5, 0, 0, 72, true⟩ (fun p _ _ => (p - 10, p + 10))
        ⟨10000, 10000, [], [], none⟩ ⟨0, 100, some 1, 0, 0, 0⟩).trades =
      (⟨10000, 10000, [], [], none⟩ : EngineState).trades ∧
    (stepBar ⟨2, 1, 1/100, 5, 0, 0, 72, true⟩ (fun p _ _ => (p - 10, p + 10))
        ⟨10000, 10000, [], [], none⟩ ⟨0, 100, some 1, 0, 0, 0⟩).current_balance =
      (⟨10000, 10000, [], [], none⟩ : EngineState).current_balance := by
  have htr : (stepBar ⟨2, 1, 1/100, 5, 0, 0, 72, true⟩
      (fun p _ _ => (p - 10, p + 10)) ⟨10000, 10000, [], [], none⟩
      ⟨0, 100, some 1, 0, 0, 0⟩).trades =
      (⟨10000, 10000, [], [], none⟩ : EngineState).trades := by
    norm_num [stepBar, applyExit, applyEntry, check_entry_conditions,
      update_equity_curve]
  exact ⟨htr, (equity_curve_realized_only ⟨2, 1, 1/100, 5, 0, 0, 72, true⟩
    (fun p _ _ => (p - 10, p + 10)) ⟨0, 100, some 1, 0, 0, 0⟩
    ⟨10000, 10000, [], [], none⟩ 10000 0 []).2.1 htr⟩

/-! ## Performance reporting (`BacktestEngine.generate_report`,
`PerformanceTracker.calculate_stats`) -/

/-- `sum(t['pnl'] for t in trades)`. -/
def total_pnl (trades : List Trade) : ℚ := (trades.map Trade.pnl).sum

/-- `[t for t in trades if t['pnl'] > 0]`. -/
def winningTrades (trades : List Trade) : List Trade :=
  trades.filter fun t => decide (0 < t.pnl)

/-- `[t for t in trades if t['pnl'] <= 0]`. -/
def losingTrades (trades : List Trade) : List Trade :=
  trades.filter fun t => decide (t.pnl ≤ 0)

/-- `np.mean` of a rational list (`0` on the empty list, though every call
below is guarded by a nonemptiness test as in the source). -/
def qmean (l : List ℚ) : ℚ := l.sum / (l.length : ℚ)

/-- The profit-factor computation shared verbatim by
`BacktestEngine.generate_report` and `PerformanceTracker.calculate_stats`:
`avg_win = mean(win pnls) if winning else 0`,
`avg_loss = mean(|loss pnls|) if losing else 0`,
`profit_factor = abs(avg_win*len(win) / (avg_loss*len(loss)))` when there
are losing trades and `float('inf')` — here `none` — otherwise. -/
def profit_factor_calc (trades : List Trade) : Option ℚ :=
  let winning := winningTrades trades
  let losing := losingTrades trades
  let avg_win := if winning = [] then 0 else qmean (winning.map Trade.pnl)
  let avg_loss := if losing = [] then 0 else qmean (losing.map fun t => |t.pnl|)
  if losing = [] then none
  else some |avg_win * (winning.length : ℚ) / (avg_loss * (losing.length : ℚ))|

/-- The fields of the `generate_report` dict that the claims refer to. -/
structure Report where
  initial_balance : ℚ
  final_balance : ℚ
  total_pnl : ℚ
  total_trades : ℕ
  winning_trades : ℕ
  losing_trades : ℕ
  profit_factor : Option ℚ

/-- `BacktestEngine.generate_report`: the `{'error': 'No trades executed'}`
marker when the trade log is empty (embedded as `none`), else the report. -/
def generate_report (s : EngineState) : Option Report :=
  match s.trades with
  | [] => none
  | _ =>
      some {
        initial_balance := s.initial_balance
        final_balance := s.current_balance
        total_pnl := total_pnl s.trades
        total_trades := s.trades.length
        winning_trades := (winningTrades s.trades).length
        losing_trades := (losingTrades s.trades).length
        profit_factor := profit_factor_calc s.trades }

/-- Balance conservation invariant: the running balance is the initial
balance plus the net PnL of all recorded trades. -/
def balanceInv (s : EngineState) : Prop :=
  s.current_balance = s.initial_balance + total_pnl s.trades

lemma exit_trade_inv (bar : Bar) (r : ExitReason) (pos : Position)
    (s : EngineState) (h : balanceInv s) : balanceInv (exit_trade bar r pos s) := by
  unfold balanceInv exit_trade at *
  dsimp only
  rw [h]
  simp [total_pnl]
  ring

lemma applyExit_inv (cfg : Config) (bar : Bar) (s : EngineState)
    (h : balanceInv s) : balanceInv (applyExit cfg bar s) := by
  unfold applyExit
  split
  · split
    · exact exit_trade_inv _ _ _ _ h
    · exact h
  · exact h

lemma stepBar_inv (cfg : Config) (slTp : SlTpRule) (bar : Bar)
    (s : EngineState) (h : balanceInv s) : balanceInv (stepBar cfg slTp s bar) := by
  have hx := applyExit_inv cfg bar s h
  have hen := applyEntry_preserves cfg slTp bar (applyExit cfg bar s)
  show (applyEntry cfg slTp bar (applyExit cfg bar s)).current_balance =
    (applyEntry cfg slTp bar (applyExit cfg bar s)).initial_balance +
      total_pnl (applyEntry cfg slTp bar (applyExit cfg bar s)).trades
  rw [hen.1, hen.2.1, hen.2.2.1]
  exact hx

lemma foldl_inv (cfg : Config) (slTp : SlTpRule) :
    ∀ (bars : List Bar) (s : EngineState), balanceInv s →
      balanceInv (bars.foldl (stepBar cfg slTp) s) := by
  intro bars
  induction bars with
  | nil => intro s h; exact h
  | cons b rest ih =>
      intro s h
      exact ih _ (stepBar_inv cfg slTp b s h)

lemma stepBar_initial (cfg : Config) (slTp : SlTpRule) (bar : Bar)
    (s : EngineState) :
    (stepBar cfg slTp s bar).initial_balance = s.initial_balance := by
  show (applyEntry cfg slTp bar (applyExit cfg bar s)).initial_balance =
    s.initial_balance
  rw [(applyEntry_preserves cfg slTp bar _).1,
    (applyExit_preserves_aux cfg bar s).1]

lemma foldl_initial (cfg : Config) (slTp : SlTpRule) :
    ∀ (bars : List Bar) (s : EngineState),
      (bars.foldl (stepBar cfg slTp) s).initial_balance = s.initial_balance := by
  intro bars
  induction bars with
  | nil => intro s; rfl
  | cons b rest ih =>
      intro s
      rw [List.foldl_cons, ih, stepBar_initial]

lemma stepBar_last (cfg : Config) (slTp : SlTpRule) (bar : Bar)
    (s : EngineState) :
    (stepBar cfg slTp s bar).equity_curve.getLast? =
      some (bar.time, (stepBar cfg slTp s bar).current_balance) := by
  rw [stepBar_equity]
  exact List.getLast?_concat _

lemma foldl_last (cfg : Config) (slTp : SlTpRule) :
    ∀ (bars : List Bar) (s : EngineState),
      (∃ t, s.equity_curve.getLast? = some (t, s.current_balance)) →
      ∃ t, (bars.foldl (stepBar cfg slTp) s).equity_curve.getLast? =
        some (t, (bars.foldl (stepBar cfg slTp) s).current_balance) := by
  intro bars
  induction bars with
  | nil => intro s h; exact h
  | cons b rest ih =>
      intro s _
      exact ih _ ⟨b.time, stepBar_last cfg slTp b s⟩

/-- C10: balance conservation: after any run (hence, since the bar list is
arbitrary, at every intermediate point of a longer run) the balance equals
the initial balance plus the sum of the recorded trades' net PnL; the last
equity-curve value equals that balance; and whenever `generate_report`
produces a report (rather than the no-trades error marker) its
`final_balance` equals `initial_balance + total_pnl`. -/
theorem balance_conservation (cfg : Config) (slTp : SlTpRule) (init t0 : ℚ)
    (bars : List Bar) :
    (run_backtest cfg slTp init t0 bars).current_balance =
        init + total_pnl (run_backtest cfg slTp init t0 bars).trades ∧
    (∃ t, (run_backtest cfg slTp init t0 bars).equity_curve.getLast? =
        some (t, (run_backtest cfg slTp init t0 bars).current_balance)) ∧
    ∀ r, generate_report (run_backtest cfg slTp init t0 bars) = some r →
      r.final_balance = r.initial_balance + r.total_pnl ∧
        r.initial_balance = init := by
  have hinv : balanceInv (run_backtest cfg slTp init t0 bars) :=
    foldl_inv cfg slTp bars _ (by simp [balanceInv, total_pnl])
  have hinit : (run_backtest cfg slTp init t0 bars).initial_balance = init :=
    foldl_initial cfg slTp bars _
  refine ⟨by rw [hinv, hinit], ?_, ?_⟩
  · exact foldl_last cfg slTp bars _ ⟨t0, rfl⟩
  · intro r hr
    unfold generate_report at hr
    split at hr
    · exact absurd hr (by simp)
    · obtain rfl := Option.some.injEq .. ▸ hr
      exact ⟨by rw [← hinv], hinit⟩

/-- Witness for C10: a concrete two-bar run (entry on the first bar, TP
exit on the second) produces a report whose final balance is the initial
balance plus the total PnL. -/
theorem balance_conservation_witness : ∃ r,
    generate_report (run_backtest ⟨1, 1, 1/100, 5, 0, 0, 72, true⟩
        (fun p _ _ => (p - 10, p + 10)) 10000 0
        [⟨0, 100, some 1, 2, 0, 0⟩, ⟨3600, 111, some 1, 0, 0, 0⟩]) = some r ∧
    r.final_balance = r.initial_balance + r.total_pnl ∧
      r.initial_balance = 10000 := by
  have hrep : generate_report (run_backtest ⟨1, 1, 1/100, 5, 0, 0, 72, true⟩
      (fun p _ _ => (p - 10, p + 10)) 10000 0
      [⟨0, 100, some 1, 2, 0, 0⟩, ⟨3600, 111, some 1, 0, 0, 0⟩]) =
      some ⟨10000, 10110, 110, 1, 1, 0, none⟩ := by
    norm_num [run_backtest, stepBar, applyExit, applyEntry,
      check_entry_conditions, enter_trade, check_exit_conditions, exit_trade,
      update_equity_curve, generate_report, roundTo2, total_pnl,
      profit_factor_calc, winningTrades, losingTrades, qmean]
  exact ⟨_, hrep, (balance_conservation ⟨1, 1, 1/100, 5, 0, 0, 72, true⟩
    (fun p _ _ => (p - 10, p + 10)) 10000 0
    [⟨0, 100, some 1, 2, 0, 0⟩, ⟨3600, 111, some 1, 0, 0, 0⟩]).2.2 _ hrep⟩

/-- The profit-factor formula as the spec words it:
`|avg_win×winCount| / |avg_loss×lossCount|`, positive infinity (`none`)
when there are no losing trades.  Stated from the spec for refinement
comparison against `profit_factor_calc`. -/
def spec_profit_factor (trades : List Trade) : Option ℚ :=
  let winning := winningTrades trades
  let losing := losingTrades trades
  let avg_win := if winning = [] then 0 else qmean (winning.map Trade.pnl)
  let avg_loss := if losing = [] then 0 else qmean (losing.map fun t => |t.pnl|)
  if losing = [] then none
  else some (|avg_win * (winning.length : ℚ)| / |avg_loss * (losing.length : ℚ)|)

/-- C8: for every trade log the engine's profit factor equals the spec's
`|avg_win×winCount| / |avg_loss×lossCount|`, and when there are no losing
trades it is exactly positive infinity (the `none` embedding of
`float('inf')`) — not a clamped value, a zero, or an error. -/
theorem profit_factor_matches_spec (trades : List Trade) :
    profit_factor_calc trades = spec_profit_factor trades ∧
    (losingTrades trades = [] → profit_factor_calc trades = none) := by
  constructor
  · unfold profit_factor_calc spec_profit_factor
    dsimp only
    split
    · rfl
    · rw [abs_div]
  · intro h
    unfold profit_factor_calc
    dsimp only
    rw [if_pos h]

/-- Witness for C8: the empty trade log has no losing trades, and the
profit factor is infinity (`none`). -/
theorem profit_factor_matches_spec_witness : profit_factor_calc [] = none :=
  (profit_factor_matches_spec []).2 rfl

/-! ## StrategyOptimizer (src/analytics/optimizer.py) -/

/-- `generate_parameter_combinations`: the Cartesian product of the
candidate value lists in `itertools.product` order (first parameter
outermost, last parameter varying fastest); a combination is the list of
chosen values (the source zips them back with the parameter names). -/
def generate_parameter_combinations {α : Type} : List (List α) → List (List α)
  | [] => [[]]
  | vs :: rest =>
      (vs.map fun v => (generate_parameter_combinations rest).map (v :: ·)).flatten

/-- The `best_score`/`best_params` update of the `optimize_parameters`
loop: the running best starts at `-float('inf')` (embedded as `none`, and
any trial beats it) and is replaced only on a strictly greater score. -/
def bestUpd {C : Type} (b : Option (C × ℚ)) (x : C × ℚ) : Option (C × ℚ) :=
  match b with
  | none => some x
  | some y => if y.2 < x.2 then some x else some y

/-- One iteration of the `optimize_parameters` loop over a combination:
`run` is the composition of `BacktestEngine.run_backtest` and
`calculate_metric`, returning `none` exactly when the backtest result
carried the `'error'` marker (in which case the loop `continue`s without
recording a trial); otherwise the trial is appended and the best updated. -/
def optimizeStep {C : Type} (run : C → Option ℚ)
    (acc : List (C × ℚ) × Option (C × ℚ)) (c : C) :
    List (C × ℚ) × Option (C × ℚ) :=
  match run c with
  | none => acc
  | some score => (acc.1 ++ [(c, score)], bestUpd acc.2 (c, score))

/-- `StrategyOptimizer.optimize_parameters`: fold the loop body over the
combinations, starting from an empty `results` list and `-inf` best. -/
def optimize_parameters {C : Type} (run : C → Option ℚ) (combos : List C) :
    List (C × ℚ) × Option (C × ℚ) :=
  combos.foldl (optimizeStep run) ([], none)

/-- The non-error trials, in enumeration order. -/
def trialsOf {C : Type} (run : C → Option ℚ) (combos : List C) :
    List (C × ℚ) :=
  combos.filterMap fun c => (run c).map fun s => (c, s)

lemma generate_parameter_combinations_length {α : Type} :
    ∀ values : List (List α),
      (generate_parameter_combinations values).length =
        (values.map List.length).prod := by
  intro values
  induction values with
  | nil => rfl
  | cons vs rest ih =>
      simp only [generate_parameter_combinations, List.length_flatten,
        List.map_map, List.map_cons, List.prod_cons, ← ih]
      induction vs with
      | nil => simp
      | cons v vt ihv =>
          simp only [List.map_cons, List.sum_cons, List.length_cons, ihv,
            Function.comp_apply, List.length_map]
          ring

lemma optimize_foldl_eq {C : Type} (run : C → Option ℚ) :
    ∀ (combos : List C) (acc : List (C × ℚ) × Option (C × ℚ)),
      combos.foldl (optimizeStep run) acc =
        (acc.1 ++ trialsOf run combos,
          (trialsOf run combos).foldl bestUpd acc.2) := by
  intro combos
  induction combos with
  | nil => intro acc; simp [trialsOf]
  | cons c rest ih =>
      intro acc
      cases hrc : run c with
      | none =>
          rw [List.foldl_cons]
          simp only [optimizeStep, hrc]
          rw [ih acc]
          simp [trialsOf, List.filterMap_cons, hrc]
      | some score =>
          rw [List.foldl_cons]
          simp only [optimizeStep, hrc]
          rw [ih]
          simp [trialsOf, List.filterMap_cons, hrc, List.append_assoc]

lemma trialsOf_length {C : Type} (run : C → Option ℚ) :
    ∀ combos : List C,
      (trialsOf run combos).length +
        combos.countP (fun c => (run c).isNone) = combos.length := by
  intro combos
  induction combos with
  | nil => rfl
  | cons c rest ih =>
      simp only [trialsOf] at ih
      cases hrc : run c with
      | none =>
          simp [trialsOf, List.filterMap_cons, List.countP_cons, hrc]
          omega
      | some score =>
          simp [trialsOf, List.filterMap_cons, List.countP_cons, hrc]
          omega

lemma bestFold_spec {C : Type} :
    ∀ (xs : List (C × ℚ)) (y z : C × ℚ),
      xs.foldl bestUpd (some y) = some z →
      (y.2 ≤ z.2 ∧ ∀ x ∈ xs, x.2 ≤ z.2) ∧
        (y :: xs).find? (fun x => decide (x.2 = z.2)) = some z := by
  intro xs
  induction xs with
  | nil =>
      intro y z hz
      obtain rfl : y = z := by simpa using hz
      refine ⟨⟨le_refl _, by simp⟩, ?_⟩
      simp [List.find?]
  | cons x xs ih =>
      intro y z hz
      rw [List.foldl_cons] at hz
      by_cases h : y.2 < x.2
      · rw [show bestUpd (some y) x = some x by simp [bestUpd, h]] at hz
        obtain ⟨⟨hx2, hxs⟩, hfind⟩ := ih x z hz
        have hyz : y.2 < z.2 := lt_of_lt_of_le h hx2
        refine ⟨⟨hyz.le, ?_⟩, ?_⟩
        · intro w hw
          rcases List.mem_cons.mp hw with rfl | hw
          · exact hx2
          · exact hxs w hw
        · rw [List.find?_cons_of_neg _ (by simp [hyz.ne])]
          exact hfind
      · rw [show bestUpd (some y) x = some y by simp [bestUpd, h]] at hz
        obtain ⟨⟨hy2, hxs⟩, hfind⟩ := ih y z hz
        have hx2 : x.2 ≤ z.2 := le_trans (le_of_not_lt h) hy2
        refine ⟨⟨hy2, ?_⟩, ?_⟩
        · intro w hw
          rcases List.mem_cons.mp hw with rfl | hw
          · exact hx2
          · exact hxs w hw
        · by_cases hy : y.2 = z.2
          · rw [List.find?_cons_of_pos _ (by simp [hy])] at hfind ⊢
            exact hfind
          · have hylt : y.2 < z.2 := lt_of_le_of_ne hy2 hy
            have hxne : x.2 ≠ z.2 :=
              ne_of_lt (lt_of_le_of_lt (le_of_not_lt h) hylt)
            rw [List.find?_cons_of_neg _ (by simp [hy])] at hfind
            rw [List.find?_cons_of_neg _ (by simp [hy]),
              List.find?_cons_of_neg _ (by simp [hxne])]
            exact hfind

lemma bestFold_isSome {C : Type} :
    ∀ (xs : List (C × ℚ)) (y : C × ℚ),
      (xs.foldl bestUpd (some y)).isSome := by
  intro xs
  induction xs with
  | nil => intro y; rfl
  | cons x xs ih =>
      intro y
      rw [List.foldl_cons]
      by_cases h : y.2 < x.2
      · rw [show bestUpd (some y) x = some x by simp [bestUpd, h]]
        exact ih x
      · rw [show bestUpd (some y) x = some y by simp [bestUpd, h]]
        exact ih y

/-- C9: grid search over a parameter grid whose value lists have sizes
`n₁, …, nₖ` enumerates exactly `n₁ ⋯ nₖ` combinations; `optimize_parameters`
returns as trial results precisely the non-error runs in enumeration order
(so `N` minus the error trials many), and whenever it reports a best
`(params, score)` the score is the maximum over the returned trials' scores
and `(params, score)` is the *first* trial attaining it (ties broken by
enumeration order); a nonempty trial list always yields a best. -/
theorem optimize_parameters_grid (α C : Type) (values : List (List α))
    (run : C → Option ℚ) (combos : List C) :
    (generate_parameter_combinations values).length =
        (values.map List.length).prod ∧
    (optimize_parameters run combos).1 = trialsOf run combos ∧
    (optimize_parameters run combos).1.length +
        combos.countP (fun c => (run c).isNone) = combos.length ∧
    (∀ c s, (optimize_parameters run combos).2 = some (c, s) →
      (∀ x ∈ (optimize_parameters run combos).1, x.2 ≤ s) ∧
        (optimize_parameters run combos).1.find?
          (fun x => decide (x.2 = s)) = some (c, s)) ∧
    ((optimize_parameters run combos).1 ≠ [] →
      ((optimize_parameters run combos).2).isSome) := by
  have heq : optimize_parameters run combos =
      (trialsOf run combos, (trialsOf run combos).foldl bestUpd none) := by
    unfold optimize_parameters
    rw [optimize_foldl_eq]
    simp
  refine ⟨generate_parameter_combinations_length values, by rw [heq], ?_, ?_, ?_⟩
  · rw [heq]
    exact trialsOf_length run combos
  · intro c s hbest
    rw [heq] at hbest ⊢
    dsimp only at hbest ⊢
    obtain ⟨x, xs, htr⟩ : ∃ x xs, trialsOf run combos = x :: xs := by
      cases hT : trialsOf run combos with
      | nil => rw [hT] at hbest; simp at hbest
      | cons a as => exact ⟨a, as, rfl⟩
    rw [htr] at hbest ⊢
    rw [List.foldl_cons] at hbest
    have hspec := bestFold_spec xs x (c, s) hbest
    refine ⟨?_, hspec.2⟩
    intro w hw
    rcases List.mem_cons.mp hw with rfl | hw2
    · exact hspec.1.1
    · exact hspec.1.2 w hw2
  · intro hne
    rw [heq] at hne ⊢
    dsimp only at hne ⊢
    cases hT : trialsOf run combos with
    | nil => exact absurd hT hne
    | cons x xs =>
        rw [List.foldl_cons]
        exact bestFold_isSome xs x

/-- Witness for C9: over combinations `[0,1,2,3]` where combination `1`
errors and scores are `0 ↦ 0, 2 ↦ 2, 3 ↦ 2`, the best is `(2, 2)` — the
maximum score, attained first by combination `2` — and every trial scores
at most `2`. -/
theorem optimize_parameters_grid_witness :
    (∀ x ∈ (optimize_parameters
        (fun n : ℕ => if n = 1 then none else if n = 3 then some 2
          else some (n : ℚ)) [0, 1, 2, 3]).1, x.2 ≤ 2) ∧
    (optimize_parameters
        (fun n : ℕ => if n = 1 then none else if n = 3 then some 2
          else some (n : ℚ)) [0, 1, 2, 3]).1.find?
        (fun x => decide (x.2 = 2)) = some (2, 2) := by
  have hbest : (optimize_parameters
      (fun n : ℕ => if n = 1 then none else if n = 3 then some 2
        else some (n : ℚ)) [0, 1, 2, 3]).2 = some (2, 2) := by
    norm_num [optimize_parameters, optimizeStep, bestUpd]
  exact optimize_parameters_grid ℕ ℕ [] _ [0, 1, 2, 3] |>.2.2.2.1 2 2 hbest

/-- The hard stop-loss condition of `check_exit_conditions`. -/
def slHit (bar : Bar) (pos : Position) : Prop :=
  match pos.direction with
  | .buy => bar.close ≤ pos.sl_price
  | .sell => pos.sl_price ≤ bar.close

/-- The take-profit condition of `check_exit_conditions`. -/
def tpHit (bar : Bar) (pos : Position) : Prop :=
  match pos.direction with
  | .buy => pos.tp_price ≤ bar.close
  | .sell => bar.close ≤ pos.tp_price

/-- The time-based exit condition of `check_exit_conditions`. -/
def timeHit (cfg : Config) (bar : Bar) (pos : Position) : Prop :=
  cfg.MAX_TRADE_HOURS ≤ (bar.time - pos.entry_time) / 3600

/-- C6: exit rules are evaluated in the fixed priority order SL, TP, time,
first match wins: the SL signal fires whenever its condition holds
(regardless of the others), TP is reported exactly when SL does not hold
and TP does, the time exit exactly when neither hard exit holds and the
time condition does, and no signal exactly when no rule fires — so a later
rule can never override an earlier one. -/
theorem exit_priority_first_match (cfg : Config) (bar : Bar) (pos : Position) :
    (slHit bar pos → check_exit_conditions cfg bar pos = some .sl) ∧
    (check_exit_conditions cfg bar pos = some .tp ↔
      ¬slHit bar pos ∧ tpHit bar pos) ∧
    (check_exit_conditions cfg bar pos = some .time ↔
      ¬slHit bar pos ∧ ¬tpHit bar pos ∧ timeHit cfg bar pos) ∧
    (check_exit_conditions cfg bar pos = none ↔
      ¬slHit bar pos ∧ ¬tpHit bar pos ∧ ¬timeHit cfg bar pos) := by
  cases hdir : pos.direction <;>
    simp only [check_exit_conditions, slHit, tpHit, timeHit, hdir] <;>
    refine ⟨fun h => by rw [if_pos h], ?_, ?_, ?_⟩ <;>
    split_ifs <;> simp_all

/-- Witness for C6: for a buy position at SL, the signal is `sl` even
though the time condition also holds. -/
theorem exit_priority_first_match_witness :
    check_exit_conditions ⟨2, 1, 1/100, 5, 0, 1/5000, 72, true⟩
        ⟨1000000, 95, some 1, 0, 0, 0⟩
        ⟨0, .buy, 100, 95, 110, 1, 0⟩ = some .sl :=
  (exit_priority_first_match ⟨2, 1, 1/100, 5, 0, 1/5000, 72, true⟩
      ⟨1000000, 95, some 1, 0, 0, 0⟩ ⟨0, .buy, 100, 95, 110, 1, 0⟩).1
    (le_refl (95 : ℚ))

end Besobot
